import Mathlib

/-!
Verification of the loom-engine branching conversation store and its CLI
presentation layer.

The CLI layer (`packages/cli/src/App.tsx`) is embedded directly from the
TypeScript source: the `sortedChildren` memo (stable unread-first partition)
and the unread-tag clearing performed by `fetchData` on navigation.

The engine core (Forest / NodeStore) is not part of the available source
tree, so it is modelled from the specification: a flat keyed store of node
records with parent/child links, an ancestor-walk path reconstruction, and
atomic, all-or-nothing mutations.
-/

namespace Loom

/-- Message role, from the engine types (`'user' | 'assistant'`). -/
inductive Role where
  | user
  | assistant
deriving DecidableEq, Repr

/-- One message, as stored on a node (`message: {role, content, timestamp}`). -/
structure Message where
  role : Role
  content : String
  timestamp : Nat
deriving DecidableEq, Repr

/-- Node metadata: an optional list of tags plus extensible named fields
(`metadata: { tags: set of string, ...extensible fields }`).  The CLI source
accesses `metadata.tags` with optional chaining (`tags?.`), so `tags` is
modelled as `Option (List String)`. -/
structure NodeMetadata where
  tags : Option (List String)
  extra : List (String × String)
deriving DecidableEq, Repr

/-- One message node.  Identifiers are modelled as natural numbers allocated
from a counter (opaque, unique, never reused). -/
structure NodeData where
  id : Nat
  parent_id : Option Nat
  message : Message
  child_ids : List Nat
  metadata : NodeMetadata
deriving DecidableEq, Repr

/-- The unread tag constant used by the CLI (`UNREAD_TAG` in `commands.ts`,
value from the spec's read/unread vocabulary). -/
def UNREAD_TAG : String := "unread"

/-- The CLI's membership test `child.metadata.tags?.includes(tag)`:
optional chaining yields `undefined` (falsy) when `tags` is absent. -/
def tagIncluded (m : NodeMetadata) (tag : String) : Bool :=
  match m.tags with
  | none => false
  | some ts => ts.contains tag

/-- One iteration of the `children.forEach` loop in `sortedChildren`
(`App.tsx:239-245`): push the child onto the `unread` bucket if its tags
include the tag, else onto the `read` bucket. -/
def partitionStep (tag : String) (acc : List NodeData × List NodeData)
    (child : NodeData) : List NodeData × List NodeData :=
  if tagIncluded child.metadata tag then (acc.1 ++ [child], acc.2)
  else (acc.1, acc.2 ++ [child])

/-- The TagPartitioner: the loop of `sortedChildren` (`App.tsx:234-247`) with
the tag as a parameter (the CLI instantiates it with `UNREAD_TAG`).  Both
buckets start empty and the result is `[...unread, ...read]`. -/
def partitionByTag (children : List NodeData) (tag : String) : List NodeData :=
  let acc := children.foldl (partitionStep tag) ([], [])
  acc.1 ++ acc.2

/-- `sortedChildren` from `App.tsx:234-247`: partition by the unread tag. -/
def sortedChildren (children : List NodeData) : List NodeData :=
  partitionByTag children UNREAD_TAG

/-- The metadata the CLI passes to `updateNodeMetadata` when clearing the
unread tag (`App.tsx:114-117`): spread the old metadata, overriding `tags`
with `tags?.filter(tag => tag !== UNREAD_TAG)`. -/
def clearedMetadata (m : NodeMetadata) : NodeMetadata :=
  { m with tags := m.tags.map (fun ts => ts.filter (fun t => !(t == UNREAD_TAG))) }

/-- The unread-clearing decision of `fetchData` (`App.tsx:112-118`): the
metadata update issued after navigating to `node`, if any.  The update is
issued only when `node?.parent_id` is present. -/
def fetchDataUnreadUpdate (node : Option NodeData) : Option (Nat × NodeMetadata) :=
  match node with
  | none => none
  | some n =>
    match n.parent_id with
    | none => none
    | some _ => some (n.id, clearedMetadata n.metadata)

/-! ## Engine core, modelled from the spec

The Forest / NodeStore implementation is not part of the available source
tree, so the definitions below are modelled from the specification
(sections 3, 4.1, 4.2 and 7): a flat keyed store (one conversation per
data directory, so one `RootData` per store), node records with
`parent_id` / `child_ids` links, mutation with all-or-nothing error
behaviour, and the fuel-bounded ancestor walk of `getPath`.  Persistence
failures are injected through an explicit `ioFail` flag. -/

/-- Modelled from the spec: error taxonomy of section 7. -/
inductive StoreError where
  | NotFoundError
  | InvalidRangeError
  | IOError
  | BusyError
  | ValidationError
deriving DecidableEq, Repr

/-- Modelled from the spec: a conversation's top-level configuration
(`config: { model, systemPrompt, parameters }`; parameters omitted, they
belong to the excluded provider layer). -/
structure RootConfig where
  model : String
  systemPrompt : Option String
deriving DecidableEq, Repr

/-- Modelled from the spec: `RootData {id, config, created_at}`. -/
structure RootData where
  id : Nat
  config : RootConfig
  created_at : Nat
deriving DecidableEq, Repr

/-- Modelled from the spec: the durable store — the owning `RootData`
(one conversation per data directory), the node records, and the counter
from which fresh unique identifiers are allocated. -/
structure Store where
  root : RootData
  nodes : List NodeData
  nextId : Nat
deriving DecidableEq, Repr

/-- Point lookup of a node record by identifier. -/
def findNode (nodes : List NodeData) (id : Nat) : Option NodeData :=
  nodes.find? (fun n => n.id == id)

/-- Modelled from the spec: `getNode(id)` — point lookup, no side effects. -/
def getNode (s : Store) (id : Nat) : Option NodeData :=
  findNode s.nodes id

/-- Modelled from the spec: `getChildren(id)` — the parent's `child_ids`
resolved to records, in stored (creation) order; empty if id unknown. -/
def getChildren (s : Store) (id : Nat) : List NodeData :=
  match findNode s.nodes id with
  | none => []
  | some n => n.child_ids.filterMap (findNode s.nodes)

/-- Metadata of a freshly created node (the spec leaves the unread-origin
policy open; creation starts from an empty tag list). -/
def newNodeMetadata : NodeMetadata :=
  { tags := some [], extra := [] }

/-- Record update applied to the parent when a child is created: append
the fresh id to the parent's `child_ids`, leave every other record
untouched. -/
def appendChild (p newId : Nat) (m : NodeData) : NodeData :=
  if m.id == p then { m with child_ids := m.child_ids ++ [newId] } else m

/-- Record update applied when metadata is replaced: overwrite the
metadata of the addressed record, leave every other record untouched. -/
def setNodeMetadata (id : Nat) (meta : NodeMetadata) (x : NodeData) : NodeData :=
  if x.id == id then { x with metadata := meta } else x

/-- Modelled from the spec: `NodeStore.createNode(parentId, message)` —
allocates a fresh id, writes the node record and, when `parentId` is
non-null, appends the id to the parent's `child_ids`, both as one atomic
unit.  Fails with `NotFoundError` for an unknown non-null parent and with
`IOError` on persistence failure (`ioFail`), leaving the store unchanged. -/
def createNode (s : Store) (parentId : Option Nat) (msg : Message)
    (ioFail : Bool) : Except StoreError NodeData × Store :=
  match parentId with
  | some p =>
    match findNode s.nodes p with
    | none => (.error .NotFoundError, s)
    | some _ =>
      if ioFail then (.error .IOError, s)
      else
        let node : NodeData :=
          { id := s.nextId, parent_id := some p, message := msg,
            child_ids := [], metadata := newNodeMetadata }
        (.ok node,
         { s with nodes := s.nodes.map (appendChild p s.nextId) ++ [node],
                  nextId := s.nextId + 1 })
  | none =>
    if ioFail then (.error .IOError, s)
    else
      let node : NodeData :=
        { id := s.nextId, parent_id := none, message := msg,
          child_ids := [], metadata := newNodeMetadata }
      (.ok node, { s with nodes := s.nodes ++ [node], nextId := s.nextId + 1 })

/-- Modelled from the spec: `Forest.createMessageNode` — thin wrapper over
`NodeStore.createNode`. -/
def createMessageNode (s : Store) (parentId : Option Nat) (msg : Message)
    (ioFail : Bool) : Except StoreError NodeData × Store :=
  createNode s parentId msg ioFail

/-- Modelled from the spec: `updateNodeMetadata(id, newMetadata)` —
replaces the node's metadata with the caller-supplied value and persists
atomically; `NotFoundError` for an unknown id, `IOError` on persistence
failure, each leaving the store unchanged. -/
def updateNodeMetadata (s : Store) (id : Nat) (m : NodeMetadata)
    (ioFail : Bool) : Except StoreError NodeData × Store :=
  match findNode s.nodes id with
  | none => (.error .NotFoundError, s)
  | some n =>
    if ioFail then (.error .IOError, s)
    else
      (.ok { n with metadata := m },
       { s with nodes := s.nodes.map (setNodeMetadata id m) })

/-- Modelled from the spec: the ancestor walk of `getPath`, from an
already-resolved node upward, prepending each visited node so the result
is in root-to-leaf order.  A node whose parent equals `fromId` stops the
walk with `fromId` excluded; a null parent with `fromId` specified (or a
dangling parent reference mid-walk) is `InvalidRangeError`.  The walk is
bounded by fuel; the store's finiteness (ids below `nextId`) makes the
fuel-exhaustion arm unreachable from `getPath`. -/
def getPathAux (s : Store) (fromId : Option Nat) :
    Nat → NodeData → List NodeData → Except StoreError (List NodeData)
  | 0, _, _ => .error .IOError
  | fuel + 1, n, acc =>
    match n.parent_id with
    | none =>
      if fromId.isSome then .error .InvalidRangeError
      else .ok (n :: acc)
    | some p =>
      if fromId = some p then .ok (n :: acc)
      else
        match findNode s.nodes p with
        | none => .error .InvalidRangeError
        | some pn => getPathAux s fromId fuel pn (n :: acc)

/-- Modelled from the spec: `getPath({from, to})` — resolves `to`
(`NotFoundError` if unknown), walks the ancestor chain, and returns the
owning `RootData` with the root-to-leaf path. -/
def getPath (s : Store) (fromId : Option Nat) (toId : Nat) :
    Except StoreError (RootData × List NodeData) :=
  match findNode s.nodes toId with
  | none => .error .NotFoundError
  | some n => (getPathAux s fromId s.nextId n []).map (fun path => (s.root, path))

/-- Modelled from the spec: a node's depth — number of nodes on its
ancestor chain, root-level depth 1 — computed with fuel. -/
def depthAux (s : Store) : Nat → Nat → Option Nat
  | 0, _ => none
  | fuel + 1, id =>
    match findNode s.nodes id with
    | none => none
    | some n =>
      match n.parent_id with
      | none => some 1
      | some p => (depthAux s fuel p).map (· + 1)

/-- Depth with the store-level fuel bound. -/
def depth (s : Store) (id : Nat) : Option Nat :=
  depthAux s s.nextId id

/-- One step of the parent walk: follow `parent_id` of the current node,
`none` once the walk has left the tree (null parent). -/
def parentStep (s : Store) (x : Option Nat) : Option Nat :=
  x.bind (fun id => (findNode s.nodes id).bind (fun n => n.parent_id))

/-- The identifiers of a node's strict ancestors, nearest first. -/
def ancestorIds (s : Store) : Nat → Nat → List Nat
  | 0, _ => []
  | fuel + 1, id =>
    match findNode s.nodes id with
    | none => []
    | some n =>
      match n.parent_id with
      | none => []
      | some p => p :: ancestorIds s fuel p

/-- `a` is a strict ancestor of `x` in the store. -/
def isAncestor (s : Store) (a x : Nat) : Bool :=
  decide (a ∈ ancestorIds s s.nextId x)

/-- The store invariants, modelled from the spec (section 3): ids below
the allocation counter and unique; parents created before their children
(which makes the parent graph acyclic); parents exist; every node is
listed exactly once in its parent's `child_ids`; and every `child_ids`
entry resolves to a node having that parent. -/
def WF (s : Store) : Prop :=
  (∀ n ∈ s.nodes, n.id < s.nextId) ∧
  (s.nodes.map NodeData.id).Nodup ∧
  (∀ n ∈ s.nodes, ∀ p, n.parent_id = some p → p < n.id) ∧
  (∀ n ∈ s.nodes, ∀ p, n.parent_id = some p → ∃ m ∈ s.nodes, m.id = p) ∧
  (∀ pn ∈ s.nodes, ∀ n ∈ s.nodes, n.parent_id = some pn.id →
    pn.child_ids.count n.id = 1) ∧
  (∀ pn ∈ s.nodes, ∀ c ∈ pn.child_ids, ∃ n ∈ s.nodes,
    n.id = c ∧ n.parent_id = some pn.id)

/-- The invariants are decidable, so they can be checked on concrete
stores. -/
instance (s : Store) : Decidable (WF s) := by
  unfold WF
  infer_instance

/-! ## Concrete sample data -/

/-- Sample read child `r1` for the partition example. -/
def r1 : NodeData :=
  { id := 10, parent_id := some 1, message := ⟨.assistant, "r1", 0⟩,
    child_ids := [], metadata := { tags := some [], extra := [] } }

/-- Sample unread child `u1` for the partition example. -/
def u1 : NodeData :=
  { id := 11, parent_id := some 1, message := ⟨.assistant, "u1", 0⟩,
    child_ids := [], metadata := { tags := some [UNREAD_TAG], extra := [] } }

/-- Sample read child `r2` for the partition example. -/
def r2 : NodeData :=
  { id := 12, parent_id := some 1, message := ⟨.assistant, "r2", 0⟩,
    child_ids := [], metadata := { tags := some [], extra := [] } }

/-- Sample unread child `u2` for the partition example. -/
def u2 : NodeData :=
  { id := 13, parent_id := some 1, message := ⟨.assistant, "u2", 0⟩,
    child_ids := [], metadata := { tags := some [UNREAD_TAG], extra := [] } }

/-- Sample child whose metadata has no tags field at all. -/
def noTagsChild : NodeData :=
  { id := 14, parent_id := some 1, message := ⟨.assistant, "nt", 0⟩,
    child_ids := [], metadata := { tags := none, extra := [] } }

/-- Sample root-level node (parent null). -/
def exRootNode : NodeData :=
  { id := 0, parent_id := none, message := ⟨.user, "hi", 0⟩,
    child_ids := [1, 2], metadata := { tags := some [], extra := [] } }

/-- Sample child node of `exRootNode`. -/
def exChildA : NodeData :=
  { id := 1, parent_id := some 0, message := ⟨.assistant, "hello", 1⟩,
    child_ids := [], metadata := { tags := some [], extra := [] } }

/-- Second sample child node of `exRootNode`, tagged unread. -/
def exChildB : NodeData :=
  { id := 2, parent_id := some 0, message := ⟨.assistant, "hey", 2⟩,
    child_ids := [], metadata := { tags := some [UNREAD_TAG], extra := [⟨"k", "v"⟩] } }

/-- Sample root record. -/
def exRoot : RootData :=
  { id := 0, config := { model := "gpt-4", systemPrompt := none }, created_at := 0 }

/-- Sample well-formed store with a root node and two children. -/
def exStore : Store :=
  { root := exRoot, nodes := [exRootNode, exChildA, exChildB], nextId := 3 }

/-- Sample message for mutation witnesses. -/
def exMsg : Message := ⟨.user, "next", 3⟩

/-- Sample metadata value for the idempotence witness. -/
def exMeta : NodeMetadata := { tags := some ["pinned"], extra := [] }

/-- `exChildB` after its metadata is replaced by `exMeta`. -/
def exChildB2 : NodeData := { exChildB with metadata := exMeta }

/-- `exStore` after `exChildB`'s metadata is replaced by `exMeta`. -/
def exStore2 : Store := { exStore with nodes := [exRootNode, exChildA, exChildB2] }

/-- The node created by appending `exMsg` under `exRootNode`. -/
def exNewNode : NodeData :=
  { id := 3, parent_id := some 0, message := exMsg,
    child_ids := [], metadata := newNodeMetadata }

/-- `exStore` after `exNewNode` is created under `exRootNode`. -/
def exStore3 : Store :=
  { root := exRoot,
    nodes := [{ exRootNode with child_ids := [1, 2, 3] }, exChildA, exChildB,
      exNewNode],
    nextId := 4 }

/-! ## Theorems -/

/-- The fold of `partitionStep` appends the tagged elements to the first
accumulator and the untagged ones to the second, in order. -/
theorem foldl_partitionStep (tag : String) (l : List NodeData) :
    ∀ a b : List NodeData,
      l.foldl (partitionStep tag) (a, b) =
        (a ++ l.filter (fun c => tagIncluded c.metadata tag),
         b ++ l.filter (fun c => !(tagIncluded c.metadata tag))) := by
  induction l with
  | nil => intro a b; simp
  | cons x xs ih =>
    intro a b
    by_cases hx : tagIncluded x.metadata tag
    · simp [partitionStep, hx, ih, List.filter_cons]
    · simp [partitionStep, hx, ih, List.filter_cons]

/-- `partitionByTag` is the tagged elements (in order) followed by the
untagged elements (in order). -/
theorem partitionByTag_eq_filter (children : List NodeData) (tag : String) :
    partitionByTag children tag =
      children.filter (fun c => tagIncluded c.metadata tag) ++
      children.filter (fun c => !(tagIncluded c.metadata tag)) := by
  simp [partitionByTag, foldl_partitionStep]

/-- `partitionByTag` permutes its input. -/
theorem partitionByTag_perm (children : List NodeData) (tag : String) :
    (partitionByTag children tag).Perm children := by
  rw [partitionByTag_eq_filter]
  exact List.filter_append_perm _ children

/-- A successful lookup returns a record carrying the requested id, drawn
from the store. -/
theorem findNode_id_eq {nodes : List NodeData} {id : Nat} {n : NodeData}
    (h : findNode nodes id = some n) : n.id = id ∧ n ∈ nodes :=
  ⟨by simpa using List.find?_some h, List.mem_of_find?_eq_some h⟩

/-- With unique ids, looking up a stored record's id returns that
record. -/
theorem findNode_of_mem {l : List NodeData} (hnd : (l.map NodeData.id).Nodup)
    {n : NodeData} (hn : n ∈ l) : findNode l n.id = some n := by
  induction l with
  | nil => cases hn
  | cons x xs ih =>
    simp only [List.map_cons, List.nodup_cons] at hnd
    rcases List.mem_cons.mp hn with rfl | hmem
    · simp [findNode]
    · have hne : x.id ≠ n.id := by
        intro he
        exact hnd.1 (he ▸ List.mem_map_of_mem NodeData.id hmem)
      have hx : (x.id == n.id) = false := by simp [hne]
      unfold findNode at ih ⊢
      rw [List.find?_cons, hx]
      exact ih hnd.2 hmem

/-- Lookup commutes with mapping an id-preserving record update over the
store. -/
theorem findNode_map_of_id {g : NodeData → NodeData} (hg : ∀ x, (g x).id = x.id)
    (l : List NodeData) (id : Nat) :
    findNode (l.map g) id = (findNode l id).map g := by
  unfold findNode
  rw [List.find?_map]
  have hfun : ((fun n : NodeData => n.id == id) ∘ g) =
      (fun n : NodeData => n.id == id) := by
    funext x
    simp [Function.comp, hg]
  rw [hfun]

/-- `appendChild` never changes a record's id. -/
theorem appendChild_id (p nid : Nat) (m : NodeData) :
    (appendChild p nid m).id = m.id := by
  unfold appendChild
  split <;> rfl

/-- `appendChild` never changes a record's parent link. -/
theorem appendChild_parent (p nid : Nat) (m : NodeData) :
    (appendChild p nid m).parent_id = m.parent_id := by
  unfold appendChild
  split <;> rfl

/-- The child list after `appendChild`: extended on the addressed parent,
untouched elsewhere. -/
theorem appendChild_child_ids (p nid : Nat) (m : NodeData) :
    (appendChild p nid m).child_ids =
      if m.id = p then m.child_ids ++ [nid] else m.child_ids := by
  unfold appendChild
  by_cases h : m.id = p <;> simp [h]

/-- `setNodeMetadata` never changes a record's id. -/
theorem setNodeMetadata_id (id : Nat) (meta : NodeMetadata) (x : NodeData) :
    (setNodeMetadata id meta x).id = x.id := by
  unfold setNodeMetadata
  split <;> rfl

/-- `setNodeMetadata` never changes a record's parent link. -/
theorem setNodeMetadata_parent (id : Nat) (meta : NodeMetadata) (x : NodeData) :
    (setNodeMetadata id meta x).parent_id = x.parent_id := by
  unfold setNodeMetadata
  split <;> rfl

/-- `setNodeMetadata` never changes a record's child list. -/
theorem setNodeMetadata_child_ids (id : Nat) (meta : NodeMetadata) (x : NodeData) :
    (setNodeMetadata id meta x).child_ids = x.child_ids := by
  unfold setNodeMetadata
  split <;> rfl

/-- Resolving a list of ids that all exist gives back exactly those ids. -/
theorem filterMap_findNode_map_id (nodes : List NodeData) :
    ∀ ids : List Nat, (∀ c ∈ ids, (findNode nodes c).isSome) →
      (ids.filterMap (findNode nodes)).map NodeData.id = ids := by
  intro ids
  induction ids with
  | nil => intro _; rfl
  | cons c cs ih =>
    intro h
    obtain ⟨m, hm⟩ := Option.isSome_iff_exists.mp (h c (List.mem_cons_self c cs))
    have hmid : m.id = c := (findNode_id_eq hm).1
    simp [List.filterMap_cons, hm, hmid,
      ih (fun x hx => h x (List.mem_cons_of_mem _ hx))]

/-- In a well-formed store the ids of `getChildren` are exactly the
parent's `child_ids`. -/
theorem getChildren_map_id (s : Store) (hWF : WF s) (p : Nat) (pn : NodeData)
    (hf : findNode s.nodes p = some pn) :
    (getChildren s p).map NodeData.id = pn.child_ids := by
  obtain ⟨hlt, hnd, hplt, hpex, hcnt, hcex⟩ := hWF
  have hpn := findNode_id_eq hf
  unfold getChildren
  rw [hf]
  apply filterMap_findNode_map_id
  intro c hc
  obtain ⟨n, hnmem, hnid, _⟩ := hcex pn hpn.2 c hc
  unfold findNode
  rw [List.find?_isSome]
  exact ⟨n, hnmem, by simp [hnid]⟩

/-- In a well-formed store the ancestor walk without a `from` bound
succeeds, producing a nonempty root-to-leaf chain that starts at a
root-level node, ends at the queried node, and whose length is the
node's depth (at any sufficient fuel). -/
theorem getPathAux_chain (s : Store) (hWF : WF s) :
    ∀ fuel (X : NodeData), X ∈ s.nodes → X.id < fuel → ∀ acc,
      ∃ path : List NodeData,
        getPathAux s none fuel X acc = .ok (path ++ acc) ∧
        path ≠ [] ∧
        (∃ n0, path.head? = some n0 ∧ n0.parent_id = none) ∧
        path.getLast? = some X ∧
        ∀ fuel2, X.id < fuel2 → depthAux s fuel2 X.id = some path.length := by
  obtain ⟨hlt, hnd, hplt, hpex, hcnt, hcex⟩ := hWF
  intro fuel
  induction fuel with
  | zero => intro X _ hX0; omega
  | succ fuel ih =>
    intro X hX hXf acc
    have hfind : findNode s.nodes X.id = some X := findNode_of_mem hnd hX
    cases hpar : X.parent_id with
    | none =>
      refine ⟨[X], by simp [getPathAux, hpar], by simp, ⟨X, rfl, hpar⟩, rfl, ?_⟩
      intro fuel2 h2
      cases fuel2 with
      | zero => omega
      | succ f2 => simp [depthAux, hfind, hpar]
    | some p =>
      obtain ⟨pn, hpnmem, hpnid⟩ := hpex X hX p hpar
      have hplt2 : p < X.id := hplt X hX p hpar
      have hfp : findNode s.nodes p = some pn := by
        rw [← hpnid]
        exact findNode_of_mem hnd hpnmem
      have hpn_lt : pn.id < fuel := by omega
      obtain ⟨path1, heq, hne, hhead, hlast, hdepth⟩ := ih pn hpnmem hpn_lt (X :: acc)
      refine ⟨path1 ++ [X], ?_, by simp, ?_, List.getLast?_concat path1, ?_⟩
      · show getPathAux s none (fuel + 1) X acc = _
        simp only [getPathAux, hpar, hfp]
        rw [if_neg (by simp), heq]
        simp
      · obtain ⟨n0, h0, h0p⟩ := hhead
        exact ⟨n0, by rw [List.head?_append_of_ne_nil path1 hne]; exact h0, h0p⟩
      · intro fuel2 h2
        cases fuel2 with
        | zero => omega
        | succ f2 =>
          have hf2 : pn.id < f2 := by omega
          simp [depthAux, hfind, hpar, hpnid ▸ hdepth f2 hf2]

/-- C2: for every stored node `X`, `getPath` with no `from` bound
succeeds and returns the owning root together with a root-to-leaf path
whose first element has a null parent, whose last element is `X`, and
whose length is `X`'s depth (root-level nodes have depth 1). -/
theorem getPath_from_root (s : Store) (hWF : WF s) (X : NodeData)
    (hX : X ∈ s.nodes) :
    ∃ (path : List NodeData) (d : Nat),
      getPath s none X.id = .ok (s.root, path) ∧
      depth s X.id = some d ∧ path.length = d ∧
      (∃ n0, path.head? = some n0 ∧ n0.parent_id = none) ∧
      path.getLast? = some X := by
  obtain ⟨hlt, hnd, -⟩ := id hWF
  have hfind : findNode s.nodes X.id = some X := findNode_of_mem hnd hX
  have hXlt : X.id < s.nextId := hlt X hX
  obtain ⟨path, heq, hne, hhead, hlast, hdepth⟩ :=
    getPathAux_chain s hWF s.nextId X hX hXlt []
  refine ⟨path, path.length, ?_, hdepth s.nextId hXlt, rfl, hhead, hlast⟩
  simp [getPath, depth, hfind, heq, Except.map]

/-- Witness for C2 at a concrete store and child node. -/
theorem getPath_from_root_witness :
    ∃ (path : List NodeData) (d : Nat),
      getPath exStore none exChildA.id = .ok (exStore.root, path) ∧
      depth exStore exChildA.id = some d ∧ path.length = d ∧
      (∃ n0, path.head? = some n0 ∧ n0.parent_id = none) ∧
      path.getLast? = some exChildA :=
  getPath_from_root exStore (by decide) exChildA (by decide)

/-- In a well-formed store the ancestor-id list does not depend on the
fuel, as long as the fuel exceeds the node's id. -/
theorem ancestorIds_fuel_eq (s : Store) (hWF : WF s) :
    ∀ f1 (X : NodeData), X ∈ s.nodes → X.id < f1 → ∀ f2, X.id < f2 →
      ancestorIds s f1 X.id = ancestorIds s f2 X.id := by
  obtain ⟨hlt, hnd, hplt, hpex, -, -⟩ := id hWF
  intro f1
  induction f1 with
  | zero => intro X _ h; omega
  | succ g ih =>
    intro X hX hXf f2 hXf2
    cases f2 with
    | zero => omega
    | succ g2 =>
      have hfind : findNode s.nodes X.id = some X := findNode_of_mem hnd hX
      cases hpar : X.parent_id with
      | none => simp [ancestorIds, hfind, hpar]
      | some p =>
        obtain ⟨pn, hpnmem, hpnid⟩ := hpex X hX p hpar
        have hp2 : p < X.id := hplt X hX p hpar
        have h1 : ancestorIds s g p = ancestorIds s g2 p := by
          have h2 := ih pn hpnmem (by omega) g2 (by omega)
          rwa [hpnid] at h2
        simp [ancestorIds, hfind, hpar, h1]

/-- When `a` is not among the ancestors of the walk's start, the bounded
walk with `from = a` ends in `InvalidRangeError`. -/
theorem getPathAux_no_ancestor (s : Store) (hWF : WF s) (a : Nat) :
    ∀ fuel (X : NodeData), X ∈ s.nodes → X.id < fuel →
      a ∉ ancestorIds s (X.id + 1) X.id → ∀ acc,
      getPathAux s (some a) fuel X acc = .error .InvalidRangeError := by
  obtain ⟨hlt, hnd, hplt, hpex, -, -⟩ := id hWF
  intro fuel
  induction fuel with
  | zero => intro X _ h _ _; omega
  | succ fuel ih =>
    intro X hX hXf hanc acc
    have hfind : findNode s.nodes X.id = some X := findNode_of_mem hnd hX
    cases hpar : X.parent_id with
    | none => simp [getPathAux, hpar]
    | some p =>
      obtain ⟨pn, hpnmem, hpnid⟩ := hpex X hX p hpar
      have hp2 : p < X.id := hplt X hX p hpar
      have hfp : findNode s.nodes p = some pn := by
        rw [← hpnid]
        exact findNode_of_mem hnd hpnmem
      simp only [ancestorIds, hfind, hpar, List.mem_cons, not_or] at hanc
      have hanc2 : a ∉ ancestorIds s (pn.id + 1) pn.id := by
        have hfe := ancestorIds_fuel_eq s hWF X.id pn hpnmem (by omega)
          (pn.id + 1) (by omega)
        rw [← hfe, hpnid]
        exact hanc.2
      simp only [getPathAux, hpar, hfp]
      rw [if_neg (by simp [hanc.1])]
      exact ih pn hpnmem (by omega) hanc2 (X :: acc)

/-- C4: for stored nodes `A` and `X` with `A` not an ancestor of `X`,
`getPath({from: A, to: X})` fails with `InvalidRangeError`: the walk from
`X` reaches a null parent while `A` was specified and never met. -/
theorem getPath_not_ancestor (s : Store) (hWF : WF s) (A X : NodeData)
    (_hA : A ∈ s.nodes) (hX : X ∈ s.nodes)
    (hna : isAncestor s A.id X.id = false) :
    getPath s (some A.id) X.id = .error .InvalidRangeError := by
  obtain ⟨hlt, hnd, -⟩ := id hWF
  have hfind : findNode s.nodes X.id = some X := findNode_of_mem hnd hX
  have hXlt : X.id < s.nextId := hlt X hX
  have hanc : A.id ∉ ancestorIds s s.nextId X.id := by
    unfold isAncestor at hna
    exact of_decide_eq_false hna
  have hanc1 : A.id ∉ ancestorIds s (X.id + 1) X.id := by
    rw [← ancestorIds_fuel_eq s hWF s.nextId X hX hXlt (X.id + 1) (by omega)]
    exact hanc
  simp only [getPath, hfind]
  rw [getPathAux_no_ancestor s hWF A.id s.nextId X hX hXlt hanc1 []]
  rfl

/-- Witness for C4 at a concrete store with two sibling children. -/
theorem getPath_not_ancestor_witness :
    getPath exStore (some exChildA.id) exChildB.id = .error .InvalidRangeError :=
  getPath_not_ancestor exStore (by decide) exChildA exChildB (by decide)
    (by decide) (by decide)

/-- One parent-walk step from a stored node follows its parent link. -/
theorem parentStep_some (s : Store)
    (hnd : (s.nodes.map NodeData.id).Nodup) (X : NodeData) (hX : X ∈ s.nodes) :
    parentStep s (some X.id) = X.parent_id := by
  simp [parentStep, findNode_of_mem hnd hX]

/-- In a well-formed store every node has a positive depth bounded by its
id, and the iterated parent walk reaches `none` in exactly depth steps. -/
theorem parentStep_depth (s : Store) (hWF : WF s) :
    ∀ fuel (X : NodeData), X ∈ s.nodes → X.id < fuel →
      ∃ d, (∀ f2, X.id < f2 → depthAux s f2 X.id = some d) ∧
        0 < d ∧ d ≤ X.id + 1 ∧
        (parentStep s)^[d] (some X.id) = none ∧
        ∀ k, k < d → (parentStep s)^[k] (some X.id) ≠ none := by
  obtain ⟨hlt, hnd, hplt, hpex, -, -⟩ := id hWF
  intro fuel
  induction fuel with
  | zero => intro X _ h; omega
  | succ fuel ih =>
    intro X hX hXf
    have hfind : findNode s.nodes X.id = some X := findNode_of_mem hnd hX
    have hstep : parentStep s (some X.id) = X.parent_id :=
      parentStep_some s hnd X hX
    cases hpar : X.parent_id with
    | none =>
      refine ⟨1, ?_, one_pos, by omega, ?_, ?_⟩
      · intro f2 h2
        cases f2 with
        | zero => omega
        | succ g2 => simp [depthAux, hfind, hpar]
      · simp [Function.iterate_one, hstep, hpar]
      · intro k hk
        have hk0 : k = 0 := by omega
        subst hk0
        simp
    | some p =>
      obtain ⟨pn, hpnmem, hpnid⟩ := hpex X hX p hpar
      have hp2 : p < X.id := hplt X hX p hpar
      obtain ⟨d1, hdep1, hpos1, hle1, hit1, hlt1⟩ := ih pn hpnmem (by omega)
      refine ⟨d1 + 1, ?_, by omega, by omega, ?_, ?_⟩
      · intro f2 h2
        cases f2 with
        | zero => omega
        | succ g2 =>
          have hg2 : depthAux s g2 pn.id = some d1 := hdep1 g2 (by omega)
          simp [depthAux, hfind, hpar, hpnid ▸ hg2]
      · rw [Function.iterate_succ_apply, hstep, hpar, ← hpnid]
        exact hit1
      · intro k hk
        cases k with
        | zero => simp
        | succ j =>
          rw [Function.iterate_succ_apply, hstep, hpar, ← hpnid]
          exact hlt1 j (by omega)

/-- C6: for every stored node the parent walk terminates: the node has a
depth `d` (finite, bounded by the id counter), iterating the parent step
`d` times from the node reaches `null`, and no earlier step does. -/
theorem ancestor_walk_terminates (s : Store) (hWF : WF s) (n : NodeData)
    (hn : n ∈ s.nodes) :
    ∃ d, depth s n.id = some d ∧ 0 < d ∧ d ≤ s.nextId ∧
      (parentStep s)^[d] (some n.id) = none ∧
      ∀ k, k < d → (parentStep s)^[k] (some n.id) ≠ none := by
  obtain ⟨hlt, -⟩ := id hWF
  have hn_lt : n.id < s.nextId := hlt n hn
  obtain ⟨d, hdep, hpos, hle, hit, hltk⟩ :=
    parentStep_depth s hWF s.nextId n hn hn_lt
  exact ⟨d, hdep s.nextId hn_lt, hpos, by omega, hit, hltk⟩

/-- Witness for C6 at a concrete store and node of depth two. -/
theorem ancestor_walk_terminates_witness :
    ∃ d, depth exStore exChildB.id = some d ∧ 0 < d ∧ d ≤ exStore.nextId ∧
      (parentStep exStore)^[d] (some exChildB.id) = none ∧
      ∀ k, k < d → (parentStep exStore)^[k] (some exChildB.id) ≠ none :=
  ancestor_walk_terminates exStore (by decide) exChildB (by decide)

/-- `createNode` either leaves the store untouched or reports success. -/
theorem createNode_cases (s : Store) (pid : Option Nat) (msg : Message)
    (io : Bool) :
    (createNode s pid msg io).2 = s ∨ ∃ n, (createNode s pid msg io).1 = .ok n := by
  cases pid with
  | none =>
    cases io with
    | false => right; exact ⟨_, rfl⟩
    | true => left; rfl
  | some p =>
    cases hf : findNode s.nodes p with
    | none => left; simp [createNode, hf]
    | some pn =>
      cases io with
      | false =>
        right
        refine ⟨{ id := s.nextId, parent_id := some p, message := msg,
                  child_ids := [], metadata := newNodeMetadata }, ?_⟩
        simp [createNode, hf]
      | true => left; simp [createNode, hf]

/-- `updateNodeMetadata` either leaves the store untouched or reports
success. -/
theorem updateNodeMetadata_cases (s : Store) (id : Nat) (m : NodeMetadata)
    (io : Bool) :
    (updateNodeMetadata s id m io).2 = s ∨
      ∃ n, (updateNodeMetadata s id m io).1 = .ok n := by
  cases hf : findNode s.nodes id with
  | none => left; simp [updateNodeMetadata, hf]
  | some n =>
    cases io with
    | false =>
      right
      refine ⟨{ n with metadata := m }, ?_⟩
      simp [updateNodeMetadata, hf]
    | true => left; simp [updateNodeMetadata, hf]

/-- C5: failures are all-or-nothing — whenever a mutation reports an
error, the store afterwards is exactly the store before the call; in
particular a persistence failure surfaces as `IOError` with prior state
unchanged. -/
theorem failed_mutations_leave_state (s : Store) :
    (∀ pid msg io (e : StoreError) s2,
      createNode s pid msg io = (.error e, s2) → s2 = s) ∧
    (∀ pid msg io (e : StoreError) s2,
      createMessageNode s pid msg io = (.error e, s2) → s2 = s) ∧
    (∀ id m io (e : StoreError) s2,
      updateNodeMetadata s id m io = (.error e, s2) → s2 = s) ∧
    (∀ msg, createNode s none msg true = (.error .IOError, s)) ∧
    (∀ p msg, (findNode s.nodes p).isSome →
      createNode s (some p) msg true = (.error .IOError, s)) := by
  have hc : ∀ pid msg io (e : StoreError) s2,
      createNode s pid msg io = (.error e, s2) → s2 = s := by
    intro pid msg io e s2 h
    rcases createNode_cases s pid msg io with h2 | ⟨n, h2⟩
    · rw [h] at h2
      exact h2
    · rw [h] at h2
      simp at h2
  refine ⟨hc, fun pid msg io e s2 h => hc pid msg io e s2 h, ?_, ?_, ?_⟩
  · intro id m io e s2 h
    rcases updateNodeMetadata_cases s id m io with h2 | ⟨n, h2⟩
    · rw [h] at h2
      exact h2
    · rw [h] at h2
      simp at h2
  · intro msg
    rfl
  · intro p msg hp
    obtain ⟨pn, hpn⟩ := Option.isSome_iff_exists.mp hp
    simp [createNode, hpn]

/-- Witness for C5: a failed creation (unknown parent) and an injected
persistence failure both leave the concrete store untouched. -/
theorem failed_mutations_leave_state_witness :
    exStore = exStore ∧
    createNode exStore none exMsg true = (.error .IOError, exStore) :=
  ⟨(failed_mutations_leave_state exStore).1 (some 99) exMsg false
      .NotFoundError exStore rfl,
   (failed_mutations_leave_state exStore).2.2.2.1 exMsg⟩

/-- `setNodeMetadata` is idempotent on records. -/
theorem setNodeMetadata_idem (id : Nat) (m : NodeMetadata) (x : NodeData) :
    setNodeMetadata id m (setNodeMetadata id m x) = setNodeMetadata id m x := by
  by_cases hx : (x.id == id) = true
  · simp [setNodeMetadata, hx]
  · simp [setNodeMetadata, hx]

/-- C8: replaying `updateNodeMetadata` with the identical metadata on the
state it produced returns the same node and the same store — the second
call changes no observable state. -/
theorem updateNodeMetadata_idempotent (s : Store) (id : Nat) (m : NodeMetadata)
    (n1 : NodeData) (s1 : Store)
    (h : updateNodeMetadata s id m false = (.ok n1, s1)) :
    updateNodeMetadata s1 id m false = (.ok n1, s1) := by
  cases hf : findNode s.nodes id with
  | none => simp [updateNodeMetadata, hf] at h
  | some n =>
    simp only [updateNodeMetadata, hf, Bool.false_eq_true, if_false,
      Prod.mk.injEq, Except.ok.injEq] at h
    obtain ⟨h1, h2⟩ := h
    subst h1
    subst h2
    have hgid : ∀ x, (setNodeMetadata id m x).id = x.id := setNodeMetadata_id id m
    have hnid : (n.id == id) = true := by
      simp [(findNode_id_eq hf).1]
    have hgn : setNodeMetadata id m n = { n with metadata := m } := by
      unfold setNodeMetadata
      rw [if_pos hnid]
    have hfind1 :
        findNode (s.nodes.map (setNodeMetadata id m)) id =
          some { n with metadata := m } := by
      rw [findNode_map_of_id hgid, hf, Option.map_some', hgn]
    simp only [updateNodeMetadata, hfind1, Bool.false_eq_true, if_false,
      Prod.mk.injEq, Except.ok.injEq]
    refine ⟨trivial, ?_⟩
    simp only [List.map_map]
    congr 1
    exact List.map_congr_left (fun x _ => setNodeMetadata_idem id m x)

/-- Witness for C8 at a concrete store: replaying the update is a no-op. -/
theorem updateNodeMetadata_idempotent_witness :
    updateNodeMetadata exStore2 2 exMeta false = (.ok exChildB2, exStore2) :=
  updateNodeMetadata_idempotent exStore 2 exMeta exChildB2 exStore2 rfl

/-- In a well-formed store every stored child-list entry is an allocated
id, hence below the counter. -/
theorem child_ids_lt (s : Store) (hWF : WF s) (y : NodeData) (hy : y ∈ s.nodes) :
    ∀ c ∈ y.child_ids, c < s.nextId := by
  obtain ⟨hlt, -, -, -, -, hcex⟩ := id hWF
  intro c hc
  obtain ⟨n, hnmem, hnid, -⟩ := hcex y hy c hc
  rw [← hnid]
  exact hlt n hnmem

/-- Replacing one node's metadata preserves all store invariants. -/
theorem WF_update (s : Store) (hWF : WF s) (id : Nat) (m : NodeMetadata) :
    WF { s with nodes := s.nodes.map (setNodeMetadata id m) } := by
  obtain ⟨hlt, hnd, hplt, hpex, hcnt, hcex⟩ := hWF
  have hgid : ∀ x, (setNodeMetadata id m x).id = x.id := setNodeMetadata_id id m
  have hgpar : ∀ x, (setNodeMetadata id m x).parent_id = x.parent_id :=
    setNodeMetadata_parent id m
  have hgch : ∀ x, (setNodeMetadata id m x).child_ids = x.child_ids :=
    setNodeMetadata_child_ids id m
  refine ⟨?_, ?_, ?_, ?_, ?_, ?_⟩
  · intro n hn
    obtain ⟨y, hy, rfl⟩ := List.mem_map.mp hn
    rw [hgid]
    exact hlt y hy
  · have hmaps : (s.nodes.map (setNodeMetadata id m)).map NodeData.id =
        s.nodes.map NodeData.id := by
      rw [List.map_map]
      exact List.map_congr_left (fun x _ => hgid x)
    show ((s.nodes.map (setNodeMetadata id m)).map NodeData.id).Nodup
    rw [hmaps]
    exact hnd
  · intro n hn p hp
    obtain ⟨y, hy, rfl⟩ := List.mem_map.mp hn
    rw [hgpar] at hp
    rw [hgid]
    exact hplt y hy p hp
  · intro n hn p hp
    obtain ⟨y, hy, rfl⟩ := List.mem_map.mp hn
    rw [hgpar] at hp
    obtain ⟨mm, hmm, hmid⟩ := hpex y hy p hp
    exact ⟨setNodeMetadata id m mm,
      List.mem_map_of_mem (setNodeMetadata id m) hmm, by rw [hgid]; exact hmid⟩
  · intro pn hpn n hn hp
    obtain ⟨py, hpy, rfl⟩ := List.mem_map.mp hpn
    obtain ⟨ny, hny, rfl⟩ := List.mem_map.mp hn
    rw [hgpar, hgid] at hp
    rw [hgch, hgid]
    exact hcnt py hpy ny hny hp
  · intro pn hpn c hc
    obtain ⟨py, hpy, rfl⟩ := List.mem_map.mp hpn
    rw [hgch] at hc
    obtain ⟨n, hnmem, hnid, hnpar⟩ := hcex py hpy c hc
    exact ⟨setNodeMetadata id m n,
      List.mem_map_of_mem (setNodeMetadata id m) hnmem,
      by rw [hgid]; exact hnid,
      by rw [hgpar, hgid]; exact hnpar⟩

/-- Creating a child under an existing parent preserves all store
invariants — in particular the new node is listed exactly once in its
parent's child list and nowhere else. -/
theorem WF_create_child (s : Store) (hWF : WF s) (p : Nat) (pn0 : NodeData)
    (hf : findNode s.nodes p = some pn0) (msg : Message) :
    WF { s with
         nodes := s.nodes.map (appendChild p s.nextId) ++
           [{ id := s.nextId, parent_id := some p, message := msg,
              child_ids := [], metadata := newNodeMetadata }],
         nextId := s.nextId + 1 } := by
  obtain ⟨hlt, hnd, hplt, hpex, hcnt, hcex⟩ := id hWF
  obtain ⟨hp0id, hp0mem⟩ := findNode_id_eq hf
  have hplt0 : p < s.nextId := by
    have := hlt pn0 hp0mem
    omega
  have hgid : ∀ x, (appendChild p s.nextId x).id = x.id := appendChild_id p s.nextId
  have hgpar : ∀ x, (appendChild p s.nextId x).parent_id = x.parent_id :=
    appendChild_parent p s.nextId
  have hmem2 : ∀ x, x ∈ s.nodes.map (appendChild p s.nextId) ++
      [{ id := s.nextId, parent_id := some p, message := msg,
         child_ids := [], metadata := newNodeMetadata }] ↔
      (∃ y ∈ s.nodes, appendChild p s.nextId y = x) ∨
        x = { id := s.nextId, parent_id := some p, message := msg,
              child_ids := [], metadata := newNodeMetadata } := by
    intro x
    simp [List.mem_append, List.mem_map]
  have hmapid : (s.nodes.map (appendChild p s.nextId)).map NodeData.id =
      s.nodes.map NodeData.id := by
    rw [List.map_map]
    exact List.map_congr_left (fun x _ => hgid x)
  refine ⟨?_, ?_, ?_, ?_, ?_, ?_⟩
  · intro n hn
    rcases (hmem2 n).mp hn with ⟨y, hy, rfl⟩ | rfl
    · rw [hgid]
      have := hlt y hy
      dsimp only
      omega
    · dsimp only
      omega
  · show ((s.nodes.map (appendChild p s.nextId) ++ _).map NodeData.id).Nodup
    rw [List.map_append, hmapid]
    refine List.Nodup.append hnd (List.nodup_singleton _) ?_
    intro a ha hb
    have hb2 := List.mem_singleton.mp hb
    dsimp only at hb2
    obtain ⟨y, hy, hyid⟩ := List.mem_map.mp ha
    have := hlt y hy
    omega
  · intro n hn q hq
    rcases (hmem2 n).mp hn with ⟨y, hy, rfl⟩ | rfl
    · rw [hgpar] at hq
      rw [hgid]
      exact hplt y hy q hq
    · dsimp only at hq ⊢
      simp only [Option.some.injEq] at hq
      omega
  · intro n hn q hq
    rcases (hmem2 n).mp hn with ⟨y, hy, rfl⟩ | rfl
    · rw [hgpar] at hq
      obtain ⟨mm, hmm, hmid⟩ := hpex y hy q hq
      refine ⟨appendChild p s.nextId mm, ?_, by rw [hgid]; exact hmid⟩
      exact List.mem_append_left _ (List.mem_map_of_mem _ hmm)
    · dsimp only at hq
      simp only [Option.some.injEq] at hq
      refine ⟨appendChild p s.nextId pn0, ?_, by rw [hgid]; omega⟩
      exact List.mem_append_left _ (List.mem_map_of_mem _ hp0mem)
  · intro pn hpn n hn hp
    rcases (hmem2 pn).mp hpn with ⟨py, hpy, rfl⟩ | rfl <;>
      rcases (hmem2 n).mp hn with ⟨ny, hny, rfl⟩ | rfl
    · rw [hgpar, hgid] at hp
      rw [appendChild_child_ids, hgid]
      by_cases hyp : py.id = p
      · rw [if_pos hyp]
        rw [List.count_append]
        have hlt2 : ny.id < s.nextId := hlt ny hny
        have hcz : List.count ny.id [s.nextId] = 0 := by
          rw [List.count_eq_zero]
          intro hmem
          have h9 := List.mem_singleton.mp hmem
          omega
        rw [hcz, hcnt py hpy ny hny hp]
      · rw [if_neg hyp]
        exact hcnt py hpy ny hny hp
    · rw [hgid] at hp
      dsimp only at hp
      simp only [Option.some.injEq] at hp
      rw [appendChild_child_ids, if_pos hp.symm]
      show List.count s.nextId (py.child_ids ++ [s.nextId]) = 1
      rw [List.count_append]
      have h0 : List.count s.nextId py.child_ids = 0 := by
        rw [List.count_eq_zero]
        intro hmem
        have := child_ids_lt s hWF py hpy s.nextId hmem
        omega
      rw [h0]
      simp
    · rw [hgpar] at hp
      dsimp only at hp
      have h1 := hplt ny hny s.nextId hp
      have h2 := hlt ny hny
      omega
    · dsimp only at hp
      simp only [Option.some.injEq] at hp
      omega
  · intro pn hpn c hc
    rcases (hmem2 pn).mp hpn with ⟨py, hpy, rfl⟩ | rfl
    · rw [appendChild_child_ids] at hc
      by_cases hyp : py.id = p
      · rw [if_pos hyp] at hc
        rcases List.mem_append.mp hc with hold | hnew
        · obtain ⟨n, hnmem, hnid, hnpar⟩ := hcex py hpy c hold
          refine ⟨appendChild p s.nextId n,
            List.mem_append_left _ (List.mem_map_of_mem _ hnmem),
            by rw [hgid]; exact hnid, by rw [hgpar, hgid]; exact hnpar⟩
        · have hc2 := List.mem_singleton.mp hnew
          subst hc2
          refine ⟨{ id := s.nextId, parent_id := some p, message := msg,
                    child_ids := [], metadata := newNodeMetadata },
            List.mem_append_right _ (List.mem_singleton_self _), rfl, ?_⟩
          rw [hgid, hyp]
      · rw [if_neg hyp] at hc
        obtain ⟨n, hnmem, hnid, hnpar⟩ := hcex py hpy c hc
        refine ⟨appendChild p s.nextId n,
          List.mem_append_left _ (List.mem_map_of_mem _ hnmem),
          by rw [hgid]; exact hnid, by rw [hgpar, hgid]; exact hnpar⟩
    · cases hc

/-- Creating a root-level node preserves all store invariants. -/
theorem WF_create_root (s : Store) (hWF : WF s) (msg : Message) :
    WF { s with
         nodes := s.nodes ++
           [{ id := s.nextId, parent_id := none, message := msg,
              child_ids := [], metadata := newNodeMetadata }],
         nextId := s.nextId + 1 } := by
  obtain ⟨hlt, hnd, hplt, hpex, hcnt, hcex⟩ := id hWF
  have hmem2 : ∀ x, x ∈ s.nodes ++
      [{ id := s.nextId, parent_id := none, message := msg,
         child_ids := [], metadata := newNodeMetadata }] ↔
      x ∈ s.nodes ∨
        x = { id := s.nextId, parent_id := none, message := msg,
              child_ids := [], metadata := newNodeMetadata } := by
    intro x
    simp [List.mem_append]
  refine ⟨?_, ?_, ?_, ?_, ?_, ?_⟩
  · intro n hn
    rcases (hmem2 n).mp hn with hy | rfl
    · have := hlt n hy
      dsimp only
      omega
    · dsimp only
      omega
  · show ((s.nodes ++ _).map NodeData.id).Nodup
    rw [List.map_append]
    refine List.Nodup.append hnd (List.nodup_singleton _) ?_
    intro a ha hb
    have hb2 := List.mem_singleton.mp hb
    dsimp only at hb2
    obtain ⟨y, hy, hyid⟩ := List.mem_map.mp ha
    have := hlt y hy
    omega
  · intro n hn q hq
    rcases (hmem2 n).mp hn with hy | rfl
    · exact hplt n hy q hq
    · dsimp only at hq
      cases hq
  · intro n hn q hq
    rcases (hmem2 n).mp hn with hy | rfl
    · obtain ⟨mm, hmm, hmid⟩ := hpex n hy q hq
      exact ⟨mm, List.mem_append_left _ hmm, hmid⟩
    · dsimp only at hq
      cases hq
  · intro pn hpn n hn hp
    rcases (hmem2 pn).mp hpn with hpy | rfl <;>
      rcases (hmem2 n).mp hn with hny | rfl
    · exact hcnt pn hpy n hny hp
    · dsimp only at hp
      cases hp
    · dsimp only at hp
      have h1 := hplt n hny s.nextId hp
      have h2 := hlt n hny
      omega
    · dsimp only at hp
      cases hp
  · intro pn hpn c hc
    rcases (hmem2 pn).mp hpn with hpy | rfl
    · obtain ⟨n, hnmem, hnid, hnpar⟩ := hcex pn hpy c hc
      exact ⟨n, List.mem_append_left _ hnmem, hnid, hnpar⟩
    · cases hc

/-- C3: after a successful `createMessageNode(p, m)` the new node's
`parent_id` is `p`, `getNode` finds it, and `p`'s children list it exactly
once; and every successful mutation (child creation, root-level creation,
metadata update) preserves all store invariants — in particular every node
is listed exactly once in its parent's `child_ids` immediately afterwards. -/
theorem createMessageNode_consistency :
    (∀ (s : Store) (p : Nat) (msg : Message) (n : NodeData) (s2 : Store),
      WF s → createMessageNode s (some p) msg false = (.ok n, s2) →
      n.parent_id = some p ∧
      getNode s2 n.id = some n ∧
      ((getChildren s2 p).map NodeData.id).count n.id = 1 ∧
      WF s2) ∧
    (∀ (s : Store) (msg : Message) (n : NodeData) (s2 : Store),
      WF s → createMessageNode s none msg false = (.ok n, s2) → WF s2) ∧
    (∀ (s : Store) (id : Nat) (m : NodeMetadata) (n : NodeData) (s2 : Store),
      WF s → updateNodeMetadata s id m false = (.ok n, s2) → WF s2) := by
  refine ⟨?_, ?_, ?_⟩
  · intro s p msg n s2 hWF h
    cases hf : findNode s.nodes p with
    | none => simp [createMessageNode, createNode, hf] at h
    | some pn0 =>
      simp only [createMessageNode, createNode, hf, Bool.false_eq_true,
        if_false, Prod.mk.injEq, Except.ok.injEq] at h
      obtain ⟨h1, h2⟩ := h
      subst h1
      subst h2
      obtain ⟨hlt, hnd, -⟩ := id hWF
      obtain ⟨hp0id, hp0mem⟩ := findNode_id_eq hf
      have hWF2 := WF_create_child s hWF p pn0 hf msg
      have hgid : ∀ x, (appendChild p s.nextId x).id = x.id :=
        appendChild_id p s.nextId
      refine ⟨rfl, ?_, ?_, hWF2⟩
      · show findNode _ _ = _
        unfold findNode
        dsimp only
        rw [List.find?_append]
        have hnone : List.find? (fun x => x.id == s.nextId)
            (s.nodes.map (appendChild p s.nextId)) = none := by
          rw [List.find?_eq_none]
          intro x hx
          obtain ⟨y, hy, rfl⟩ := List.mem_map.mp hx
          have h3 := hlt y hy
          simp only [hgid, beq_iff_eq]
          omega
        rw [hnone]
        simp
      · have hfp2 : findNode
            (s.nodes.map (appendChild p s.nextId) ++
              [{ id := s.nextId, parent_id := some p, message := msg,
                 child_ids := [], metadata := newNodeMetadata }]) p =
            some (appendChild p s.nextId pn0) := by
          unfold findNode
          rw [List.find?_append]
          have hsome : findNode (s.nodes.map (appendChild p s.nextId)) p =
              some (appendChild p s.nextId pn0) := by
            rw [findNode_map_of_id hgid, hf]
            rfl
          unfold findNode at hsome
          rw [hsome]
          rfl
        rw [getChildren_map_id _ hWF2 p _ hfp2]
        rw [appendChild_child_ids, if_pos hp0id]
        dsimp only
        rw [List.count_append]
        have h0 : List.count s.nextId pn0.child_ids = 0 := by
          rw [List.count_eq_zero]
          intro hmem
          have := child_ids_lt s hWF pn0 hp0mem s.nextId hmem
          omega
        rw [h0]
        simp
  · intro s msg n s2 hWF h
    simp only [createMessageNode, createNode, Bool.false_eq_true, if_false,
      Prod.mk.injEq, Except.ok.injEq] at h
    obtain ⟨h1, h2⟩ := h
    subst h2
    exact WF_create_root s hWF msg
  · intro s id m n s2 hWF h
    cases hf : findNode s.nodes id with
    | none => simp [updateNodeMetadata, hf] at h
    | some n0 =>
      simp only [updateNodeMetadata, hf, Bool.false_eq_true, if_false,
        Prod.mk.injEq, Except.ok.injEq] at h
      obtain ⟨h1, h2⟩ := h
      subst h2
      exact WF_update s hWF id m

/-- Witness for C3: creating a node under the concrete store's root. -/
theorem createMessageNode_consistency_witness :
    exNewNode.parent_id = some 0 ∧
    getNode exStore3 exNewNode.id = some exNewNode ∧
    ((getChildren exStore3 0).map NodeData.id).count exNewNode.id = 1 ∧
    WF exStore3 :=
  createMessageNode_consistency.1 exStore 0 exMsg exNewNode exStore3
    (by decide) rfl

/-- C1: for every finite sequence of children and every tag,
`partitionByTag` returns a permutation of the children in which every
tagged child precedes every untagged one, each group keeping its original
relative order (the result is exactly the tagged sublist followed by the
untagged sublist); in particular on `[r1, u1, r2, u2]` with the unread tag
it yields `[u1, u2, r1, r2]`. -/
theorem partitionByTag_stable_partition :
    (∀ (children : List NodeData) (tag : String),
      partitionByTag children tag =
        children.filter (fun c => tagIncluded c.metadata tag) ++
        children.filter (fun c => !(tagIncluded c.metadata tag)) ∧
      (partitionByTag children tag).Perm children) ∧
    partitionByTag [r1, u1, r2, u2] UNREAD_TAG = [u1, u2, r1, r2] := by
  refine ⟨fun children tag =>
    ⟨partitionByTag_eq_filter children tag, partitionByTag_perm children tag⟩, ?_⟩
  rfl

/-- C7: on navigation the CLI issues a metadata update clearing the unread
tag exactly when the current node has a non-null `parent_id`; the update
targets that node with its metadata whose tag list no longer contains the
unread tag, and a root-level node gets no update at all. -/
theorem unread_cleared_on_navigation (n : NodeData) :
    (∀ p, n.parent_id = some p →
      fetchDataUnreadUpdate (some n) = some (n.id, clearedMetadata n.metadata) ∧
      ∀ ts, (clearedMetadata n.metadata).tags = some ts → UNREAD_TAG ∉ ts) ∧
    (n.parent_id = none → fetchDataUnreadUpdate (some n) = none) := by
  constructor
  · intro p hp
    constructor
    · simp [fetchDataUnreadUpdate, hp]
    · intro ts hts
      simp only [clearedMetadata, Option.map_eq_some'] at hts
      obtain ⟨ts0, _, rfl⟩ := hts
      intro hmem
      simp [List.mem_filter] at hmem
  · intro hp
    simp [fetchDataUnreadUpdate, hp]

/-- Witness for C7 at a concrete unread child and a concrete root-level
node. -/
theorem unread_cleared_on_navigation_witness :
    (fetchDataUnreadUpdate (some u1) = some (u1.id, clearedMetadata u1.metadata) ∧
      ∀ ts, (clearedMetadata u1.metadata).tags = some ts → UNREAD_TAG ∉ ts) ∧
    fetchDataUnreadUpdate (some exRootNode) = none :=
  ⟨(unread_cleared_on_navigation u1).1 1 rfl,
   (unread_cleared_on_navigation exRootNode).2 rfl⟩

/-- C9: the metadata the CLI passes when clearing the unread tag changes
only the tags field — every other metadata field is preserved — and the
new tag list is the original one with exactly the unread tag removed, in
the original relative order (a sublist of the original). -/
theorem clear_unread_frame (n : NodeData) (p : Nat) (hp : n.parent_id = some p) :
    fetchDataUnreadUpdate (some n) = some (n.id, clearedMetadata n.metadata) ∧
    (clearedMetadata n.metadata).extra = n.metadata.extra ∧
    (n.metadata.tags = none → (clearedMetadata n.metadata).tags = none) ∧
    ∀ ts, n.metadata.tags = some ts →
      ∃ ts2, (clearedMetadata n.metadata).tags = some ts2 ∧
        ts2.Sublist ts ∧ ∀ t, t ∈ ts2 ↔ (t ∈ ts ∧ t ≠ UNREAD_TAG) := by
  refine ⟨by simp [fetchDataUnreadUpdate, hp], rfl, ?_, ?_⟩
  · intro h
    simp [clearedMetadata, h]
  · intro ts hts
    refine ⟨ts.filter (fun t => !(t == UNREAD_TAG)), by simp [clearedMetadata, hts],
      List.filter_sublist ts, ?_⟩
    intro t
    simp [List.mem_filter]

/-- Witness for C9 at a concrete node carrying the unread tag, another tag
and an extra metadata field. -/
theorem clear_unread_frame_witness :
    fetchDataUnreadUpdate (some exChildB) =
      some (exChildB.id, clearedMetadata exChildB.metadata) ∧
    (clearedMetadata exChildB.metadata).extra = exChildB.metadata.extra ∧
    (exChildB.metadata.tags = none → (clearedMetadata exChildB.metadata).tags = none) ∧
    ∀ ts, exChildB.metadata.tags = some ts →
      ∃ ts2, (clearedMetadata exChildB.metadata).tags = some ts2 ∧
        ts2.Sublist ts ∧ ∀ t, t ∈ ts2 ↔ (t ∈ ts ∧ t ≠ UNREAD_TAG) :=
  clear_unread_frame exChildB 0 rfl

/-- C10: the CLI partition is total on children whose metadata has no tags
field: such a child tests as not carrying the tag and is placed in the
trailing (read) group, which keeps the original relative order. -/
theorem absent_tags_in_read_group (children : List NodeData) (tag : String)
    (c : NodeData) (htags : c.metadata.tags = none) (hc : c ∈ children) :
    tagIncluded c.metadata tag = false ∧
    partitionByTag children tag =
      children.filter (fun x => tagIncluded x.metadata tag) ++
      children.filter (fun x => !(tagIncluded x.metadata tag)) ∧
    c ∈ children.filter (fun x => !(tagIncluded x.metadata tag)) ∧
    (children.filter (fun x => !(tagIncluded x.metadata tag))).Sublist children := by
  have hfalse : tagIncluded c.metadata tag = false := by
    simp [tagIncluded, htags]
  refine ⟨hfalse, partitionByTag_eq_filter children tag, ?_, List.filter_sublist children⟩
  exact List.mem_filter.mpr ⟨hc, by simp [hfalse]⟩

/-- Witness for C10 at a concrete children list holding a tagless child. -/
theorem absent_tags_in_read_group_witness :
    tagIncluded noTagsChild.metadata UNREAD_TAG = false ∧
    partitionByTag [u1, noTagsChild, r1] UNREAD_TAG =
      ([u1, noTagsChild, r1].filter (fun x => tagIncluded x.metadata UNREAD_TAG)) ++
      ([u1, noTagsChild, r1].filter (fun x => !(tagIncluded x.metadata UNREAD_TAG))) ∧
    noTagsChild ∈ [u1, noTagsChild, r1].filter
      (fun x => !(tagIncluded x.metadata UNREAD_TAG)) ∧
    ([u1, noTagsChild, r1].filter
      (fun x => !(tagIncluded x.metadata UNREAD_TAG))).Sublist [u1, noTagsChild, r1] :=
  absent_tags_in_read_group [u1, noTagsChild, r1] UNREAD_TAG noTagsChild rfl
    (by simp)

end Loom
